import Mathlib

/-!
# Pollard rho factorizer (`pollard_rho.c`)

A shallow embedding of `pollard_rho.c`.  GMP integers (`mpz_t`) are unbounded, so they are
embedded as `Int`.  The three GMP calls used by the search are embedded by their documented
meaning:

* `mpz_mod r a n` is the non-negative residue of `a` modulo `|n|` (`Int.emod`), defined for
  `n ≠ 0`;
* `mpz_abs` is the absolute value;
* `mpz_gcd d a b` is the non-negative greatest common divisor (`Int.gcd`).

`mpz_t` arguments are passed by reference in C, so a procedure that receives `x` and `n`
returns both in the embedding.
-/

namespace Factorizer

/-! ## The sequence iterator -/

/-- The procedure `g(x, n)` of the source: `mpz_mul(x, x, x)`, `mpz_add_ui(x, x, 1)`,
`mpz_mod(x, x, n)`.  It returns the contents of both variables after the call. -/
def g (x n : Int) : Int × Int :=
  let x := x * x
  let x := x + 1
  let x := x % n
  (x, n)

/-! ## The search of one worker -/

/-- The local variables of `pollard_rho`, together with the modulus the worker holds a
reference to. -/
structure RhoState where
  /-- The tortoise. -/
  x : Int
  /-- The hare. -/
  y : Int
  /-- The last greatest common divisor computed, `1` before the first iteration. -/
  d : Int
  /-- The modulus. -/
  n : Int
  /-- The iteration counter (`long counter`, which cannot overflow before `2 ^ 63`
  iterations). -/
  counter : Nat
  /-- The flag `overwrite_result`. -/
  overwrite_result : Bool
  deriving DecidableEq, Repr

/-- The state after the initialisations that precede the `while` loop. -/
def rhoInit (n start : Int) : RhoState :=
  { x := start, y := start, d := 1, n := n, counter := 0, overwrite_result := true }

/-- The loop body after the periodic check: lines 57 to 70 of the source. -/
def rhoBody (st : RhoState) : RhoState :=
  let (x, n) := g st.x st.n
  let (y, n) := g st.y n
  let (y, n) := g y n
  let diff := x - y
  let diff : Int := diff.natAbs
  let d : Int := Int.gcd diff n
  { x := x, y := y, d := d, n := n, counter := st.counter + 1,
    overwrite_result := st.overwrite_result }

/-- What one pass through the `while` loop does when the result slot holds `result` at the
moment of the periodic check: `Sum.inr` is the state on leaving the loop (the loop condition
is false, or the `break` of the check), `Sum.inl` the state after one full iteration. -/
def rhoStep (result : Int) (st : RhoState) : RhoState ⊕ RhoState :=
  if st.d = 1 then
    if st.counter % 1000000 = 0 ∧ result ≠ 0 then
      Sum.inr { st with overwrite_result := false }
    else
      Sum.inl (rhoBody st)
  else
    Sum.inr st

/-- The `while` loop of a worker that runs alone, so that the slot holds `result` during the
whole loop.  `fuel` bounds the number of iterations; `none` means the bound was reached
before the loop was left. -/
def rhoLoop (result : Int) : Nat → RhoState → Option RhoState
  | 0, st =>
    match rhoStep result st with
    | Sum.inr out => some out
    | Sum.inl _ => none
  | fuel + 1, st =>
    match rhoStep result st with
    | Sum.inr out => some out
    | Sum.inl next => rhoLoop result fuel next

/-- The state of a lone worker after exactly `k` full iterations of the loop, or `none` when
the worker leaves the loop before completing `k` iterations. -/
def rhoAfter (result : Int) : Nat → RhoState → Option RhoState
  | 0, st => some st
  | k + 1, st =>
    match rhoStep result st with
    | Sum.inr _ => none
    | Sum.inl next => rhoAfter result k next

/-- The write after the loop (lines 73 to 76): the new contents of the result slot. -/
def rhoFinish (result : Int) (st : RhoState) : Int :=
  if st.overwrite_result then st.d else result

/-- The function `pollard_rho(result, n, start)` run by a single worker: the contents of the
result slot on return, or `none` when `fuel` iterations did not suffice. -/
def pollard_rho (fuel : Nat) (result n start : Int) : Option Int :=
  (rhoLoop result fuel (rhoInit n start)).map (rhoFinish result)

/-- The number of loop iterations a single worker performed before leaving the loop. -/
def pollard_rho_iterations (fuel : Nat) (result n start : Int) : Option Nat :=
  (rhoLoop result fuel (rhoInit n start)).map (fun st => st.counter)

/-- The `while` loop of a worker while other workers may fill the slot: `slot i` is what the
result slot holds at the moment the worker makes the pass that starts with `counter = i`
(the only place in a pass where the slot is consulted is the periodic check).  `fuel` bounds
the number of iterations, as in `rhoLoop`. -/
def rhoLoopShared (slot : Nat → Int) : Nat → RhoState → Option RhoState
  | 0, st =>
    match rhoStep (slot st.counter) st with
    | Sum.inr out => some out
    | Sum.inl _ => none
  | fuel + 1, st =>
    match rhoStep (slot st.counter) st with
    | Sum.inr out => some out
    | Sum.inl next => rhoLoopShared slot fuel next

/-! ## Mathematical description of the search -/

/-- The `k`-th term of the sequence generated by `g` modulo `n` from `s`. -/
def orbit (n s : Int) (k : Nat) : Int :=
  (fun v => (g v n).1)^[k] s

/-- The greatest common divisor probed at iteration `k` of Floyd's scheme. -/
def floydGcd (n s : Int) (k : Nat) : Int :=
  Int.gcd (orbit n s k - orbit n s (2 * k)) n

/-- The state `pollard_rho` is expected to be in after `k` iterations. -/
def floydState (n s : Int) (k : Nat) : RhoState :=
  { x := orbit n s k, y := orbit n s (2 * k), d := if k = 0 then 1 else floydGcd n s k,
    n := n, counter := k, overwrite_result := true }

/-! ## Several workers on one result slot

The workers are threads that share the result slot and nothing else.  A worker touches the
slot at two places: the read of the periodic check (line 51) and the write after the loop
(line 74).  An atomic step of a worker is one pass through the loop, which contains at most
one such read, or the write after the loop. -/

/-- Where a worker stands: at the head of the `while` loop, at line 73 after the loop, or
returned. -/
inductive Pc where
  | loop
  | finish
  | done
  deriving DecidableEq, Repr

/-- A worker thread: its position and its local variables. -/
structure Worker where
  pc : Pc
  st : RhoState
  deriving DecidableEq, Repr

/-- The shared result slot and the workers. -/
structure System where
  slot : Int
  workers : List Worker
  deriving DecidableEq, Repr

/-- One atomic step of a worker when the slot holds `slot`: the new contents of the slot and
the new state of the worker. -/
def workerStep (slot : Int) (w : Worker) : Int × Worker :=
  match w.pc with
  | Pc.loop =>
    match rhoStep slot w.st with
    | Sum.inl next => (slot, { pc := Pc.loop, st := next })
    | Sum.inr out => (slot, { pc := Pc.finish, st := out })
  | Pc.finish => (rhoFinish slot w.st, { pc := Pc.done, st := w.st })
  | Pc.done => (slot, w)

/-- The system after worker `i` takes one atomic step. -/
def sysStep (i : Nat) (sys : System) : System :=
  match sys.workers[i]? with
  | none => sys
  | some w =>
    let (slot, w) := workerStep sys.slot w
    { slot := slot, workers := sys.workers.set i w }

/-- The system after the workers take steps in the order given by a schedule. -/
def runSchedule (schedule : List Nat) (sys : System) : System :=
  schedule.foldl (fun acc i => sysStep i acc) sys

/-- The system `main` sets up: an empty slot (`mpz_init(factor)`) and one worker per start. -/
def sysInit (n : Int) (starts : List Int) : System :=
  { slot := 0, workers := starts.map (fun s => { pc := Pc.loop, st := rhoInit n s }) }

/-- Whether every worker has returned. -/
def allDone (sys : System) : Bool :=
  sys.workers.all (fun w => w.pc = Pc.done)

/-- What `main` does that can be observed from outside. -/
inductive Event where
  /-- A `printf` of a message: text on standard output. -/
  | printf (text : String)
  /-- The call `mpz_init_set_str(n, n_str, 10)`. -/
  | parse_target (text : String)
  /-- The call `pthread_create` for worker `i` with its start value. -/
  | launch (i : Nat) (start : Int)
  /-- The call `pthread_join` for worker `i`. -/
  | join (i : Nat)
  /-- The call `gmp_printf("%Zd\n", factor)`: the factor on standard output. -/
  | print_factor (value : Int)
  /-- The process is aborted: `mpz_urandomm` reduces modulo its bound, and GMP raises a
  division by zero when the bound is `0`. -/
  | abort
  deriving DecidableEq, Repr

/-- The library and system behaviour `main` relies on. -/
structure Env where
  /-- The C library function `atoi`. -/
  atoi : String → Int
  /-- The GMP function `mpz_init_set_str` in base 10: the value, or `none` when it reports
  an invalid number (a non-zero return value). -/
  mpz_init_set_str : String → Option Int
  /-- The `i`-th draw of `mpz_urandomm` below `n`, for `n ≠ 0`. -/
  mpz_urandomm : Nat → Int → Int
  /-- Whether both `calloc` calls succeed. -/
  calloc_ok : Bool
  /-- The contents of the result slot once all workers are joined, `none` when some worker
  never returns. -/
  run_workers : Int → List Int → Option Int

/-- The result of `main`: what it did, and the exit code (`none` when it never exits or is
aborted). -/
structure MainResult where
  events : List Event
  exit_code : Option Int
  deriving DecidableEq, Repr

/-- The part of `main` from line 121 on, for the target text and the number of threads, which
is at least `1` here.  The first pass of the launch loop draws a start with `mpz_urandomm`
before any `pthread_create`, so a target of `0` aborts the process with no worker launched. -/
def mainRun (E : Env) (n_str : String) (num_threads : Int) (events : List Event) :
    MainResult :=
  let events := events ++ [Event.parse_target n_str]
  match E.mpz_init_set_str n_str with
  | none =>
    { events := events ++ [Event.printf "Error. Not a valid base 10 number.\n"],
      exit_code := some 1 }
  | some n =>
    if E.calloc_ok = false then
      { events := events ++ [Event.printf "Couldn't initialize the threads."],
        exit_code := some 1 }
    else if n = 0 then
      { events := events ++ [Event.abort], exit_code := none }
    else
      let starts := (List.range num_threads.toNat).map (fun i => E.mpz_urandomm i n)
      let events := events ++ starts.enum.map (fun p => Event.launch p.1 p.2)
      match E.run_workers n starts with
      | none => { events := events, exit_code := none }
      | some factor =>
        let events := events ++ (List.range num_threads.toNat).map Event.join
        { events := events ++ [Event.print_factor factor], exit_code := some 0 }

/-- The function `main`, for the argument vector `argv` (`argc` is its length).  After the
factor is printed `main` ends with `pthread_exit(NULL)`, all workers being joined, so the
process exits with code `0`. -/
def main (E : Env) (argv : List String) : MainResult :=
  let argc := argv.length
  let num_threads : Int := 1
  if argc = 2 then
    let n_str := argv.getD 1 ""
    mainRun E n_str num_threads []
  else if argc = 3 then
    let n_str := argv.getD 1 ""
    let num_threads := E.atoi (argv.getD 2 "")
    if num_threads < 1 then
      { events := [Event.printf "Error. Must have at least one thread.\n"],
        exit_code := some 1 }
    else
      mainRun E n_str num_threads []
  else
    { events := [Event.printf "Usage: ./pollard_rho number_to_factor [number_of_threads]\n"],
      exit_code := some 1 }

/-- The text `main` wrote on standard output, through `printf` and `gmp_printf`. -/
def stdoutText (r : MainResult) : List String :=
  r.events.filterMap (fun e =>
    match e with
    | Event.printf text => some text
    | Event.print_factor v => some (toString v ++ "\n")
    | _ => none)

/-- The factors `main` printed. -/
def printedFactors (r : MainResult) : List Int :=
  r.events.filterMap (fun e =>
    match e with
    | Event.print_factor v => some v
    | _ => none)

/-- The number of workers `main` launched. -/
def launchedWorkers (r : MainResult) : Nat :=
  (r.events.filter (fun e =>
    match e with
    | Event.launch _ _ => true
    | _ => false)).length

/-- Whether `main` got as far as parsing the target. -/
def targetParsed (r : MainResult) : Bool :=
  r.events.any (fun e =>
    match e with
    | Event.parse_target _ => true
    | _ => false)

/-- A sample environment for concrete runs: `atoi` and the base 10 parser are given on the
texts used in the examples, every draw is `0`, the allocations succeed, and the workers are
a single worker run to completion. -/
def sampleEnv : Env :=
  { atoi := fun text => if text = "4" then 4 else 0
    mpz_init_set_str := fun text =>
      if text = "15" then some 15 else if text = "8051" then some 8051
      else if text = "0" then some 0 else none
    mpz_urandomm := fun _ _ => 0
    calloc_ok := true
    run_workers := fun n starts => pollard_rho n.toNat 0 n (starts.getD 0 0) }

/-! ## Basic facts about the sequence and the loop -/

theorem g_fst (x n : Int) : (g x n).1 = (x * x + 1) % n := rfl

theorem g_snd (x n : Int) : (g x n).2 = n := rfl

theorem orbit_zero (n s : Int) : orbit n s 0 = s := rfl

theorem orbit_succ (n s : Int) (k : Nat) : orbit n s (k + 1) = (g (orbit n s k) n).1 := by
  unfold orbit
  rw [Function.iterate_succ_apply']

theorem orbit_add (n s : Int) (a b : Nat) : orbit n s (a + b) = orbit n (orbit n s b) a := by
  unfold orbit
  rw [Function.iterate_add_apply]

theorem orbit_nonneg (n s : Int) (hn : 0 < n) (k : Nat) : 0 ≤ orbit n s (k + 1) := by
  rw [orbit_succ, g_fst]
  exact Int.emod_nonneg _ (ne_of_gt hn)

theorem orbit_lt (n s : Int) (hn : 0 < n) (k : Nat) : orbit n s (k + 1) < n := by
  rw [orbit_succ, g_fst]
  exact Int.emod_lt_of_pos _ hn

theorem floydState_zero (n s : Int) : floydState n s 0 = rhoInit n s := rfl

theorem rhoBody_floydState (n s : Int) (k : Nat) :
    rhoBody (floydState n s k) = floydState n s (k + 1) := by
  have h2 : 2 * (k + 1) = (2 * k + 1) + 1 := by ring
  simp only [floydState, rhoBody, floydGcd, h2, orbit_succ, g_snd, Nat.succ_ne_zero, if_false]
  simp [Int.gcd, Int.natAbs_abs]


theorem rhoStep_floydState_one (n s : Int) (k : Nat) (h : (floydState n s k).d = 1) :
    rhoStep 0 (floydState n s k) = Sum.inl (floydState n s (k + 1)) := by
  unfold rhoStep
  rw [if_pos h, if_neg (by simp), rhoBody_floydState]

theorem rhoStep_floydState_ne (n s : Int) (k : Nat) (h : (floydState n s k).d ≠ 1) :
    rhoStep 0 (floydState n s k) = Sum.inr (floydState n s k) := by
  unfold rhoStep
  rw [if_neg h]

theorem floydState_d_pos (n s : Int) (k : Nat) (hk : 1 ≤ k) :
    (floydState n s k).d = floydGcd n s k := by
  simp [floydState, Nat.one_le_iff_ne_zero.mp hk]

theorem floydState_d_one (n s : Int) (k j : Nat)
    (hone : ∀ i, 1 ≤ i → i < k → floydGcd n s i = 1) (hj : j < k) :
    (floydState n s j).d = 1 := by
  rcases Nat.eq_zero_or_pos j with h0 | h0
  · simp [floydState, h0]
  · rw [floydState_d_pos n s j h0]
    exact hone j h0 hj

/-- While every earlier probe gives `1`, the loop started in the state after `j` iterations
reaches the state after `k` iterations and leaves there. -/
theorem rhoLoop_floydState (n s : Int) (k : Nat) (hk : 1 ≤ k)
    (hone : ∀ i, 1 ≤ i → i < k → floydGcd n s i = 1) (hk1 : floydGcd n s k ≠ 1) :
    ∀ m j fuel, j + m = k → m ≤ fuel →
      rhoLoop 0 fuel (floydState n s j) = some (floydState n s k) := by
  intro m
  induction m with
  | zero =>
    intro j fuel hj _
    have hjk : j = k := by omega
    subst hjk
    have hd : (floydState n s j).d ≠ 1 := by
      rw [floydState_d_pos n s j hk]; exact hk1
    cases fuel <;> simp [rhoLoop, rhoStep_floydState_ne n s j hd]
  | succ m ih =>
    intro j fuel hj hfuel
    have hd : (floydState n s j).d = 1 := floydState_d_one n s k j hone (by omega)
    cases fuel with
    | zero => omega
    | succ fuel =>
      simp only [rhoLoop, rhoStep_floydState_one n s j hd]
      exact ih (j + 1) fuel (by omega) (by omega)

theorem rhoAfter_floydState (n s : Int) (k : Nat)
    (hone : ∀ i, 1 ≤ i → i < k → floydGcd n s i = 1) :
    ∀ m j, j + m ≤ k → rhoAfter 0 m (floydState n s j) = some (floydState n s (j + m)) := by
  intro m
  induction m with
  | zero => intro j _; rfl
  | succ m ih =>
    intro j hj
    have hd : (floydState n s j).d = 1 := floydState_d_one n s k j hone (by omega)
    simp only [rhoAfter, rhoStep_floydState_one n s j hd]
    rw [ih (j + 1) (by omega)]
    congr 2
    omega

theorem rhoAfter_floydState_none (n s : Int) (k : Nat) (hk : 1 ≤ k)
    (hone : ∀ i, 1 ≤ i → i < k → floydGcd n s i = 1) (hk1 : floydGcd n s k ≠ 1) :
    ∀ m j, j ≤ k → k < j + m → rhoAfter 0 m (floydState n s j) = none := by
  intro m
  induction m with
  | zero => intro j h1 h2; omega
  | succ m ih =>
    intro j h1 h2
    rcases Nat.lt_or_ge j k with hjk | hjk
    · have hd : (floydState n s j).d = 1 := floydState_d_one n s k j hone hjk
      simp only [rhoAfter, rhoStep_floydState_one n s j hd]
      exact ih (j + 1) (by omega) (by omega)
    · have hjk2 : j = k := by omega
      subst hjk2
      have hd : (floydState n s j).d ≠ 1 := by
        rw [floydState_d_pos n s j hk]; exact hk1
      simp only [rhoAfter, rhoStep_floydState_ne n s j hd]


/-! ### The tortoise and the hare meet -/

theorem orbit_periodic (n s : Int) (i L : Nat) (h : orbit n s (i + L) = orbit n s i) (m : Nat)
    (hm : i ≤ m) : orbit n s (m + L) = orbit n s m := by
  obtain ⟨t, rfl⟩ := Nat.exists_eq_add_of_le hm
  have e1 : i + t + L = t + (i + L) := by omega
  have e2 : i + t = t + i := by omega
  rw [e1, e2, orbit_add, orbit_add n s t i, h]

theorem orbit_periodic_mul (n s : Int) (i L : Nat) (h : orbit n s (i + L) = orbit n s i)
    (c m : Nat) (hm : i ≤ m) : orbit n s (m + c * L) = orbit n s m := by
  induction c with
  | zero => simp
  | succ c ih =>
    have e : m + (c + 1) * L = (m + c * L) + L := by ring
    rw [e, orbit_periodic n s i L h (m + c * L) (by omega), ih]

theorem collision_of_repeat (n s : Int) (i j : Nat) (hij : i < j)
    (h : orbit n s (i + 1) = orbit n s (j + 1)) :
    ∃ k, 1 ≤ k ∧ k ≤ j ∧ orbit n s k = orbit n s (2 * k) := by
  have hL : 0 < j - i := by omega
  have hper : orbit n s ((i + 1) + (j - i)) = orbit n s (i + 1) := by
    have e : (i + 1) + (j - i) = j + 1 := by omega
    rw [e, h]
  have hle : j / (j - i) * (j - i) ≤ j := Nat.div_mul_le_self j (j - i)
  have hlt : j < j / (j - i) * (j - i) + (j - i) := Nat.lt_div_mul_add hL
  refine ⟨j / (j - i) * (j - i), by omega, hle, ?_⟩
  have e : 2 * (j / (j - i) * (j - i)) = j / (j - i) * (j - i) + j / (j - i) * (j - i) := by
    ring
  rw [e, orbit_periodic_mul n s (i + 1) (j - i) hper (j / (j - i)) _ (by omega)]

/-- Within `n` iterations the tortoise and the hare hold the same residue. -/
theorem exists_collision (n s : Int) (hn : 0 < n) :
    ∃ k, 1 ≤ k ∧ k ≤ n.toNat ∧ orbit n s k = orbit n s (2 * k) := by
  have hcard : (Finset.Ico (0 : Int) n).card < (Finset.range (n.toNat + 1)).card := by
    simp
  have hmaps : ∀ a ∈ Finset.range (n.toNat + 1),
      orbit n s (a + 1) ∈ Finset.Ico (0 : Int) n := by
    intro a _
    exact Finset.mem_Ico.mpr ⟨orbit_nonneg n s hn a, orbit_lt n s hn a⟩
  obtain ⟨i, hi, j, hj, hne, heq⟩ :=
    Finset.exists_ne_map_eq_of_card_lt_of_maps_to hcard hmaps
  rw [Finset.mem_range] at hi hj
  rcases Nat.lt_or_gt_of_ne hne with hlt | hlt
  · obtain ⟨k, h1, h2, h3⟩ := collision_of_repeat n s i j hlt heq
    exact ⟨k, h1, by omega, h3⟩
  · obtain ⟨k, h1, h2, h3⟩ := collision_of_repeat n s j i hlt heq.symm
    exact ⟨k, h1, by omega, h3⟩

theorem floydGcd_of_collision (n s : Int) (k : Nat) (h : orbit n s k = orbit n s (2 * k)) :
    floydGcd n s k = n.natAbs := by
  simp [floydGcd, h]

theorem floydGcd_dvd (n s : Int) (k : Nat) : floydGcd n s k ∣ n := by
  unfold floydGcd
  exact Int.gcd_dvd_right

theorem floydGcd_nonneg (n s : Int) (k : Nat) : 0 ≤ floydGcd n s k := by
  unfold floydGcd
  exact Int.ofNat_nonneg _

theorem floydGcd_pos (n s : Int) (hn : 0 < n) (k : Nat) : 0 < floydGcd n s k := by
  unfold floydGcd
  exact Int.ofNat_pos.mpr (Int.gcd_pos_of_ne_zero_right _ (ne_of_gt hn))

theorem floydGcd_le (n s : Int) (hn : 0 < n) (k : Nat) : floydGcd n s k ≤ n :=
  Int.le_of_dvd hn (floydGcd_dvd n s k)

/-- The first iteration at which the probe differs from `1`: it exists, is at least `1` and
at most `n`. -/
theorem exists_first_probe (n s : Int) (hn : 2 ≤ n) :
    ∃ k, 1 ≤ k ∧ k ≤ n.toNat ∧ (∀ i, 1 ≤ i → i < k → floydGcd n s i = 1) ∧
      floydGcd n s k ≠ 1 := by
  classical
  obtain ⟨c, hc1, hc2, hc3⟩ := exists_collision n s (by omega)
  have hex : ∃ k, 1 ≤ k ∧ floydGcd n s k ≠ 1 := by
    refine ⟨c, hc1, ?_⟩
    rw [floydGcd_of_collision n s c hc3]
    omega
  refine ⟨Nat.find hex, (Nat.find_spec hex).1, ?_, ?_, (Nat.find_spec hex).2⟩
  · exact le_trans (Nat.find_min' hex ⟨hc1, by rw [floydGcd_of_collision n s c hc3]; omega⟩) hc2
  · intro i hi1 hik
    by_contra hne
    exact Nat.find_min hex hik ⟨hi1, hne⟩


/-! ### Fuel -/

theorem rhoLoop_succ (r : Int) (fuel : Nat) :
    ∀ st out, rhoLoop r fuel st = some out → rhoLoop r (fuel + 1) st = some out := by
  induction fuel with
  | zero =>
    intro st out h
    simp only [rhoLoop] at h ⊢
    cases hs : rhoStep r st with
    | inl next => simp [hs] at h
    | inr o => simpa [hs] using h
  | succ fuel ih =>
    intro st out h
    rw [rhoLoop] at h ⊢
    cases hs : rhoStep r st with
    | inl next =>
      simp only [hs] at h ⊢
      exact ih next out h
    | inr o => simpa [hs] using h

theorem rhoLoop_mono (r : Int) (st out : RhoState) (fuel fuel2 : Nat) (hle : fuel ≤ fuel2)
    (h : rhoLoop r fuel st = some out) : rhoLoop r fuel2 st = some out := by
  induction hle with
  | refl => exact h
  | step _ ih => exact rhoLoop_succ r _ st out ih

theorem rhoLoop_unique (r : Int) (st a b : RhoState) (f1 f2 : Nat)
    (h1 : rhoLoop r f1 st = some a) (h2 : rhoLoop r f2 st = some b) : a = b := by
  rcases Nat.le_total f1 f2 with hle | hle
  · have := rhoLoop_mono r st a f1 f2 hle h1
    rw [h2] at this
    exact (Option.some.inj this).symm
  · have := rhoLoop_mono r st b f2 f1 hle h2
    rw [h1] at this
    exact Option.some.inj this

theorem pollard_rho_unique (r n s a b : Int) (f1 f2 : Nat)
    (h1 : pollard_rho f1 r n s = some a) (h2 : pollard_rho f2 r n s = some b) : a = b := by
  unfold pollard_rho at h1 h2
  rw [Option.map_eq_some'] at h1 h2
  obtain ⟨sa, hsa, rfl⟩ := h1
  obtain ⟨sb, hsb, rfl⟩ := h2
  rw [rhoLoop_unique r _ sa sb f1 f2 hsa hsb]

theorem pollard_rho_mono (r n s a : Int) (fuel fuel2 : Nat) (hle : fuel ≤ fuel2)
    (h : pollard_rho fuel r n s = some a) : pollard_rho fuel2 r n s = some a := by
  unfold pollard_rho at h ⊢
  rw [Option.map_eq_some'] at h ⊢
  obtain ⟨sa, hsa, rfl⟩ := h
  exact ⟨sa, rhoLoop_mono r _ sa fuel fuel2 hle hsa, rfl⟩

/-! ### The search of a lone worker on an empty slot -/

/-- A lone worker on an empty slot leaves the loop after the first iteration `k` whose probe
differs from `1`, in the state Floyd's scheme prescribes. -/
theorem rhoLoop_search (n s : Int) (hn : 2 ≤ n) :
    ∃ k, 1 ≤ k ∧ k ≤ n.toNat ∧ (∀ i, 1 ≤ i → i < k → floydGcd n s i = 1) ∧
      floydGcd n s k ≠ 1 ∧
      ∀ fuel, k ≤ fuel → rhoLoop 0 fuel (rhoInit n s) = some (floydState n s k) := by
  obtain ⟨k, hk1, hk2, hone, hne⟩ := exists_first_probe n s hn
  refine ⟨k, hk1, hk2, hone, hne, ?_⟩
  intro fuel hfuel
  rw [← floydState_zero]
  exact rhoLoop_floydState n s k hk1 hone hne k 0 fuel (by omega) hfuel

/-- A lone worker on an empty slot leaves the loop within `n` iterations, with a divisor of
`n` other than `1`. -/
theorem rhoLoop_divisor (n s : Int) (hn : 2 ≤ n) :
    ∃ st, rhoLoop 0 n.toNat (rhoInit n s) = some st ∧ st.overwrite_result = true ∧
      1 < st.d ∧ st.d ≤ n ∧ st.d ∣ n ∧ ∃ m : Nat, st.d = m := by
  obtain ⟨k, hk1, hk2, _, hne, hloop⟩ := rhoLoop_search n s hn
  refine ⟨floydState n s k, hloop _ hk2, rfl, ?_, ?_, ?_, ?_⟩
  · rw [floydState_d_pos n s k hk1]
    have := floydGcd_pos n s (by omega) k
    omega
  · rw [floydState_d_pos n s k hk1]
    exact floydGcd_le n s (by omega) k
  · rw [floydState_d_pos n s k hk1]
    exact floydGcd_dvd n s k
  · rw [floydState_d_pos n s k hk1]
    exact ⟨_, rfl⟩

theorem rhoBody_counter (st : RhoState) : (rhoBody st).counter = st.counter + 1 := rfl

theorem rhoBody_n (st : RhoState) : (rhoBody st).n = st.n := rfl

theorem rhoBody_d (st : RhoState) :
    (rhoBody st).d = Int.gcd ((g st.x st.n).1 - (g (g st.y st.n).1 st.n).1) st.n := by
  simp [rhoBody, g, Int.gcd, Int.natAbs_abs]

/-- A pass that stays in the loop is the loop body. -/
theorem rhoStep_inl (r : Int) (st next : RhoState) (h : rhoStep r st = Sum.inl next) :
    next = rhoBody st ∧ st.d = 1 ∧ ¬ (st.counter % 1000000 = 0 ∧ r ≠ 0) := by
  unfold rhoStep at h
  by_cases hd : st.d = 1
  · rw [if_pos hd] at h
    by_cases hc : st.counter % 1000000 = 0 ∧ r ≠ 0
    · rw [if_pos hc] at h
      exact absurd h (by simp)
    · rw [if_neg hc] at h
      exact ⟨(Sum.inl.inj h).symm, hd, hc⟩
  · rw [if_neg hd] at h
    exact absurd h (by simp)

/-- A pass that leaves the loop does so because the loop condition is false, and then the
state is untouched, or through the `break` of the check, and then only the flag changes. -/
theorem rhoStep_inr (r : Int) (st out : RhoState) (h : rhoStep r st = Sum.inr out) :
    (st.d ≠ 1 ∧ out = st) ∨
      (st.d = 1 ∧ st.counter % 1000000 = 0 ∧ r ≠ 0 ∧
        out = { st with overwrite_result := false }) := by
  unfold rhoStep at h
  by_cases hd : st.d = 1
  · rw [if_pos hd] at h
    by_cases hc : st.counter % 1000000 = 0 ∧ r ≠ 0
    · rw [if_pos hc] at h
      exact Or.inr ⟨hd, hc.1, hc.2, (Sum.inr.inj h).symm⟩
    · rw [if_neg hc] at h
      exact absurd h (by simp)
  · rw [if_neg hd] at h
    exact Or.inl ⟨hd, (Sum.inr.inj h).symm⟩

/-- Away from the multiples of one million a pass does not depend on the slot. -/
theorem rhoStep_no_read (r r2 : Int) (st : RhoState) (hc : st.counter % 1000000 ≠ 0) :
    rhoStep r st = rhoStep r2 st := by
  unfold rhoStep
  have h1 : ¬ (st.counter % 1000000 = 0 ∧ r ≠ 0) := fun h => hc h.1
  have h2 : ¬ (st.counter % 1000000 = 0 ∧ r2 ≠ 0) := fun h => hc h.1
  rw [if_neg h1, if_neg h2]

/-- At a multiple of one million a pass of the loop stops on a filled slot and goes on with
an empty one. -/
theorem rhoStep_read (r : Int) (st : RhoState) (hd : st.d = 1)
    (hc : st.counter % 1000000 = 0) :
    rhoStep r st =
      if r ≠ 0 then Sum.inr { st with overwrite_result := false } else Sum.inl (rhoBody st) := by
  unfold rhoStep
  rw [if_pos hd]
  by_cases hr : r ≠ 0
  · rw [if_pos ⟨hc, hr⟩, if_pos hr]
  · rw [if_neg (fun h => hr h.2), if_neg hr]

theorem rhoLoop_eq_shared (r : Int) (fuel : Nat) :
    ∀ st, rhoLoop r fuel st = rhoLoopShared (fun _ => r) fuel st := by
  induction fuel with
  | zero => intro st; rfl
  | succ fuel ih =>
    intro st
    rw [rhoLoop, rhoLoopShared]
    cases rhoStep r st with
    | inl next => exact ih next
    | inr out => rfl

/-- The loop consults the slot only at the multiples of one million: two histories of the
slot that agree there give the same run. -/
theorem rhoLoopShared_congr (slot slot2 : Nat → Int)
    (h : ∀ i, i % 1000000 = 0 → slot i = slot2 i) (fuel : Nat) :
    ∀ st, rhoLoopShared slot fuel st = rhoLoopShared slot2 fuel st := by
  have hstep : ∀ st, rhoStep (slot st.counter) st = rhoStep (slot2 st.counter) st := by
    intro st
    by_cases hc : st.counter % 1000000 = 0
    · rw [h st.counter hc]
    · exact rhoStep_no_read _ _ st hc
  induction fuel with
  | zero =>
    intro st
    rw [rhoLoopShared, rhoLoopShared, hstep st]
  | succ fuel ih =>
    intro st
    rw [rhoLoopShared, rhoLoopShared, hstep st]
    cases rhoStep (slot2 st.counter) st with
    | inl next => exact ih next
    | inr out => rfl

/-- Once the slot is filled for good, the loop is left at the next multiple of one million
at the latest. -/
theorem rhoLoopShared_bounded (slot : Nat → Int) (m : Nat) (hm : m % 1000000 = 0)
    (hfull : slot m ≠ 0) :
    ∀ gap fuel st, st.counter + gap = m → gap ≤ fuel →
      ∃ out, rhoLoopShared slot fuel st = some out ∧ st.counter ≤ out.counter ∧
        out.counter ≤ m := by
  intro gap
  induction gap with
  | zero =>
    intro fuel st hst _
    have hcm : st.counter = m := by omega
    have hex : ∃ out, rhoStep (slot st.counter) st = Sum.inr out ∧ out.counter = st.counter := by
      by_cases hd : st.d = 1
      · rw [rhoStep_read _ st hd (by rw [hcm]; exact hm), if_pos (by rw [hcm]; exact hfull)]
        exact ⟨_, rfl, rfl⟩
      · unfold rhoStep
        rw [if_neg hd]
        exact ⟨_, rfl, rfl⟩
    obtain ⟨out, hout, hc⟩ := hex
    refine ⟨out, ?_, by omega, by omega⟩
    cases fuel <;> simp [rhoLoopShared, hout]
  | succ gap ih =>
    intro fuel st hst hfuel
    cases fuel with
    | zero => omega
    | succ fuel =>
      rw [rhoLoopShared]
      cases hs : rhoStep (slot st.counter) st with
      | inl next =>
        obtain ⟨hnext, _, _⟩ := rhoStep_inl _ st next hs
        have hcn : next.counter = st.counter + 1 := by rw [hnext]; rfl
        obtain ⟨out, hout, h1, h2⟩ := ih fuel next (by omega) (by omega)
        exact ⟨out, hout, by omega, h2⟩
      | inr out =>
        have hc : out.counter = st.counter := by
          rcases rhoStep_inr _ st out hs with ⟨_, h⟩ | ⟨_, _, _, h⟩ <;> rw [h]
        exact ⟨out, rfl, by omega, by omega⟩

/-- Every probe of a worker on a modulus `N ≥ 1` is a divisor of `N` between `1` and `N`, and
a worker that leaves the loop with the flag `overwrite_result` still set does so with a
probe other than `1`. -/
theorem rhoLoopShared_divisor (N : Int) (hN : 1 ≤ N) (slot : Nat → Int) (fuel : Nat) :
    ∀ st out, st.n = N → 1 ≤ st.d → st.d ≤ N → st.d ∣ N →
      rhoLoopShared slot fuel st = some out →
      out.n = N ∧ 1 ≤ out.d ∧ out.d ≤ N ∧ out.d ∣ N ∧
        (out.overwrite_result = true → out.d ≠ 1) := by
  have hexit : ∀ st out, st.n = N → 1 ≤ st.d → st.d ≤ N → st.d ∣ N →
      rhoStep (slot st.counter) st = Sum.inr out →
      out.n = N ∧ 1 ≤ out.d ∧ out.d ≤ N ∧ out.d ∣ N ∧
        (out.overwrite_result = true → out.d ≠ 1) := by
    intro st out hn h1 h2 h3 hs
    rcases rhoStep_inr _ st out hs with ⟨hd, h⟩ | ⟨_, _, _, h⟩
    · rw [h]
      exact ⟨hn, h1, h2, h3, fun _ => hd⟩
    · rw [h]
      exact ⟨hn, h1, h2, h3, fun hw => absurd hw (by simp)⟩
  have hbody : ∀ st, st.n = N →
      (rhoBody st).n = N ∧ 1 ≤ (rhoBody st).d ∧ (rhoBody st).d ≤ N ∧ (rhoBody st).d ∣ N := by
    intro st hn
    have hdvd : (rhoBody st).d ∣ N := by
      rw [rhoBody_d, hn]
      exact Int.gcd_dvd_right
    have hpos : 0 < (rhoBody st).d := by
      rw [rhoBody_d, hn]
      exact Int.ofNat_pos.mpr (Int.gcd_pos_of_ne_zero_right _ (by omega))
    exact ⟨by rw [rhoBody_n, hn], by omega, Int.le_of_dvd (by omega) hdvd, hdvd⟩
  induction fuel with
  | zero =>
    intro st out hn h1 h2 h3 hrun
    rw [rhoLoopShared] at hrun
    cases hs : rhoStep (slot st.counter) st with
    | inl next => simp [hs] at hrun
    | inr o =>
      simp only [hs, Option.some.injEq] at hrun
      rw [← hrun]
      exact hexit st o hn h1 h2 h3 hs
  | succ fuel ih =>
    intro st out hn h1 h2 h3 hrun
    rw [rhoLoopShared] at hrun
    cases hs : rhoStep (slot st.counter) st with
    | inl next =>
      simp only [hs] at hrun
      obtain ⟨hnext, _, _⟩ := rhoStep_inl _ st next hs
      obtain ⟨b1, b2, b3, b4⟩ := hbody st hn
      rw [← hnext] at b1 b2 b3 b4
      exact ih next out b1 b2 b3 b4 hrun
    | inr o =>
      simp only [hs, Option.some.injEq] at hrun
      rw [← hrun]
      exact hexit st o hn h1 h2 h3 hs

/-- With less room than the first probe other than `1` needs, the loop is not left. -/
theorem rhoLoop_floydState_none (n s : Int) (k : Nat)
    (hone : ∀ i, 1 ≤ i → i < k → floydGcd n s i = 1) :
    ∀ fuel j, j + fuel < k → rhoLoop 0 fuel (floydState n s j) = none := by
  intro fuel
  induction fuel with
  | zero =>
    intro j hj
    have hd : (floydState n s j).d = 1 := floydState_d_one n s k j hone (by omega)
    simp [rhoLoop, rhoStep_floydState_one n s j hd]
  | succ fuel ih =>
    intro j hj
    have hd : (floydState n s j).d = 1 := floydState_d_one n s k j hone (by omega)
    simp only [rhoLoop, rhoStep_floydState_one n s j hd]
    exact ih (j + 1) (by omega)

/-- The bound of one million further iterations is attained: for `N = 1` every probe is `1`,
and a worker whose slot is filled just after its first check goes on until its counter is
1,000,000. -/
theorem rhoLoopShared_delay_attained :
    ∀ gap j fuel, j + gap = 1000000 → gap ≤ fuel →
      rhoLoopShared (fun i => if i = 0 then 0 else 5) fuel
          { x := 0, y := 0, d := 1, n := 1, counter := j, overwrite_result := true } =
        some { x := 0, y := 0, d := 1, n := 1, counter := 1000000,
               overwrite_result := false } := by
  intro gap
  induction gap with
  | zero =>
    intro j fuel hj _
    have hj2 : j = 1000000 := by omega
    subst hj2
    have hs : rhoStep ((fun i : Nat => if i = 0 then (0 : Int) else 5) 1000000)
        { x := 0, y := 0, d := 1, n := 1, counter := 1000000, overwrite_result := true } =
        Sum.inr { x := 0, y := 0, d := 1, n := 1, counter := 1000000,
                  overwrite_result := false } := by
      rw [rhoStep_read _ _ rfl (by rfl)]
      rfl
    cases fuel <;> simp only [rhoLoopShared, hs]
  | succ gap ih =>
    intro j fuel hj hfuel
    have hs : rhoStep ((fun i : Nat => if i = 0 then (0 : Int) else 5) j)
        { x := 0, y := 0, d := 1, n := 1, counter := j, overwrite_result := true } =
        Sum.inl { x := 0, y := 0, d := 1, n := 1, counter := j + 1,
                  overwrite_result := true } := by
      have h0 : rhoStep 0
          { x := 0, y := 0, d := 1, n := 1, counter := j, overwrite_result := true } =
          Sum.inl { x := 0, y := 0, d := 1, n := 1, counter := j + 1,
                    overwrite_result := true } := by
        unfold rhoStep
        rw [if_pos rfl, if_neg (fun h => h.2 rfl)]
        simp [rhoBody, g]
      rcases Nat.eq_zero_or_pos j with hz | hpos
      · subst hz
        exact h0
      · rw [← h0]
        exact rhoStep_no_read _ _ _ (by show j % 1000000 ≠ 0; omega)
    cases fuel with
    | zero => omega
    | succ fuel =>
      simp only [rhoLoopShared, hs]
      exact ih (j + 1) fuel (by omega) (by omega)

/-- The run of a worker on `N = 1` whose slot is filled just after its first check: it leaves
the loop with its counter at 1,000,000. -/
theorem delay_bound_attained :
    rhoLoopShared (fun i => if i = 0 then 0 else 5) 1000000 (rhoInit 1 0) =
      some { x := 0, y := 0, d := 1, n := 1, counter := 1000000,
             overwrite_result := false } :=
  rhoLoopShared_delay_attained 1000000 0 1000000 (Nat.zero_add _) (Nat.le_refl _)

/-! ### Several workers: what the slot can hold -/

/-- Two runs of four workers on `8051` with the starts `0`, `4`, `2` and `91`.  When the
workers run one after the other, the first one writes `97` and the others give up at their
first check.  When all four pass their first check before any of them writes, the slot goes
through `97`, `83` and `97` and ends at `8051`, written last by the worker started at `91`. -/
theorem four_workers_8051_runs :
    (runSchedule [0, 0, 0, 0, 0, 1, 1, 2, 2, 3, 3] (sysInit 8051 [0, 4, 2, 91])).slot = 97 ∧
      allDone (runSchedule [0, 0, 0, 0, 0, 1, 1, 2, 2, 3, 3] (sysInit 8051 [0, 4, 2, 91])) =
        true ∧
      (runSchedule [0, 1, 2, 3, 0, 0, 0, 0] (sysInit 8051 [0, 4, 2, 91])).slot = 97 ∧
      (runSchedule [0, 1, 2, 3, 0, 0, 0, 0, 1, 1, 1, 1, 1, 1]
        (sysInit 8051 [0, 4, 2, 91])).slot = 83 ∧
      (runSchedule
        [0, 1, 2, 3, 0, 0, 0, 0, 1, 1, 1, 1, 1, 1, 2, 2, 2, 2,
          3, 3, 3, 3, 3, 3, 3, 3, 3, 3, 3, 3, 3, 3, 3, 3]
        (sysInit 8051 [0, 4, 2, 91])).slot = 8051 ∧
      allDone (runSchedule
        [0, 1, 2, 3, 0, 0, 0, 0, 1, 1, 1, 1, 1, 1, 2, 2, 2, 2,
          3, 3, 3, 3, 3, 3, 3, 3, 3, 3, 3, 3, 3, 3, 3, 3]
        (sysInit 8051 [0, 4, 2, 91])) = true := by
  set_option maxRecDepth 100000 in decide

/-! ## The claims -/

/-- C1 (as stated, refuted): it is not the case that for every odd `N = p * q` with `p`, `q`
prime and every start in `[0, N)` a lone worker on an empty slot leaves a value `d` with
`1 < d < N` and `N mod d = 0`: for `N = 21 = 3 * 7` and start `2` it leaves `21`. -/
theorem pollard_rho_semiprime_counterexample :
    ¬ ∀ (p q : Nat) (start : Int), p.Prime → q.Prime → (p * q) % 2 = 1 →
        0 ≤ start → start < ((p * q : Nat) : Int) →
        ∃ (fuel : Nat) (d : Int), pollard_rho fuel 0 ((p * q : Nat) : Int) start = some d ∧
          1 < d ∧ d < ((p * q : Nat) : Int) ∧ ((p * q : Nat) : Int) % d = 0 := by
  intro h
  obtain ⟨fuel, d, hd, _, hlt, _⟩ :=
    h 3 7 2 (by norm_num) (by norm_num) (by decide) (by decide) (by decide)
  have h21 : pollard_rho 21 0 21 2 = some 21 := by decide
  have hd21 : d = 21 := pollard_rho_unique 0 21 2 d 21 fuel 21 hd h21
  rw [hd21] at hlt
  exact absurd hlt (by decide)

/-- C1 (amended): for every odd `N = p * q` with `p`, `q` prime and every start in `[0, N)`,
the loop of a lone worker on an empty slot ends within `N` iterations with a value `d` such
that `1 < d ≤ N` and `N mod d = 0`; when `d < N`, the worker returns with `d` in the slot. -/
theorem pollard_rho_semiprime (p q : Nat) (start : Int) (hp : p.Prime) (hq : q.Prime)
    (_hodd : (p * q) % 2 = 1) (_h0 : 0 ≤ start) (_h1 : start < ((p * q : Nat) : Int)) :
    ∃ st, rhoLoop 0 (p * q) (rhoInit ((p * q : Nat) : Int) start) = some st ∧
      1 < st.d ∧ st.d ≤ ((p * q : Nat) : Int) ∧ ((p * q : Nat) : Int) % st.d = 0 ∧
      (st.d < ((p * q : Nat) : Int) →
        pollard_rho (p * q) 0 ((p * q : Nat) : Int) start = some st.d) := by
  have hpq : 2 ≤ ((p * q : Nat) : Int) := by
    have h2 : 2 * 2 ≤ p * q := Nat.mul_le_mul hp.two_le hq.two_le
    omega
  obtain ⟨st, hloop, how, hd1, hd2, hd3, _⟩ := rhoLoop_divisor ((p * q : Nat) : Int) start hpq
  rw [Int.toNat_ofNat] at hloop
  refine ⟨st, hloop, hd1, hd2, Int.emod_eq_zero_of_dvd hd3, ?_⟩
  intro _
  unfold pollard_rho
  rw [hloop]
  simp [rhoFinish, how]

/-- Witness for C1 (amended): `N = 15 = 3 * 5`, start `4`. -/
theorem pollard_rho_semiprime_witness :
    ∃ st, rhoLoop 0 (3 * 5) (rhoInit ((3 * 5 : Nat) : Int) 4) = some st ∧
      1 < st.d ∧ st.d ≤ ((3 * 5 : Nat) : Int) ∧ ((3 * 5 : Nat) : Int) % st.d = 0 ∧
      (st.d < ((3 * 5 : Nat) : Int) →
        pollard_rho (3 * 5) 0 ((3 * 5 : Nat) : Int) 4 = some st.d) :=
  pollard_rho_semiprime 3 5 4 (by norm_num) (by norm_num) (by decide) (by decide) (by decide)

/-- C2: for every integer `v` and every modulus `N > 0`, `g(v, N)` replaces `v` by
`(v * v + 1) mod N`, a residue in `[0, N)`, and leaves `N` unchanged; `g(0, 35) = 1`,
`g(6, 35) = 2` and `g(1, 35) = 2`. -/
theorem g_spec (v N : Int) (hN : 0 < N) :
    g v N = ((v * v + 1) % N, N) ∧ 0 ≤ (g v N).1 ∧ (g v N).1 < N ∧
      g 0 35 = (1, 35) ∧ g 6 35 = (2, 35) ∧ g 1 35 = (2, 35) := by
  refine ⟨rfl, ?_, ?_, by decide, by decide, by decide⟩
  · rw [g_fst]
    exact Int.emod_nonneg _ (ne_of_gt hN)
  · rw [g_fst]
    exact Int.emod_lt_of_pos _ hN

/-- Witness for C2: `v = 6`, `N = 35`. -/
theorem g_spec_witness :
    (0 : Int) < 35 ∧ (g 6 35 = ((6 * 6 + 1) % 35, 35) ∧ 0 ≤ (g 6 35).1 ∧ (g 6 35).1 < 35 ∧
      g 0 35 = (1, 35) ∧ g 6 35 = (2, 35) ∧ g 1 35 = (2, 35)) :=
  ⟨by decide, g_spec 6 35 (by decide)⟩

/-- C3 (the code at the failing input): for the prime `N = 97`, start `0` and an empty slot,
the search reaches `d = N` and `pollard_rho` writes `97` into the slot. -/
theorem pollard_rho_prime_97 :
    Nat.Prime 97 ∧ pollard_rho 97 0 97 0 = some 97 ∧
      (rhoLoop 0 97 (rhoInit 97 0)).map (fun st => st.d) = some 97 :=
  ⟨by norm_num, by decide, by decide⟩

/-- C4 (the code at the failing input): two workers on `N = 21` with starts `0` and `3`.
Worker 1 passes its check while the slot is empty; worker 0 then runs to its end and writes
`3`; worker 1 goes on, finds `7` and writes it over the `3`. -/
theorem slot_overwritten :
    (runSchedule [1, 0, 0, 0, 0] (sysInit 21 [0, 3])).slot = 3 ∧
      (runSchedule [1, 1] (runSchedule [1, 0, 0, 0, 0] (sysInit 21 [0, 3]))).slot = 7 := by
  decide

/-- C5: for every `N > 0`, every start and every non-zero slot value `r`, `pollard_rho`
called with the slot holding `r` leaves the loop at its first check, with no iteration done
and the flag `overwrite_result` cleared, and returns with the slot still holding `r`. -/
theorem pollard_rho_slot_taken (N start r : Int) (_hN : 0 < N) (hr : r ≠ 0) (fuel : Nat) :
    rhoLoop r fuel (rhoInit N start) =
        some { x := start, y := start, d := 1, n := N, counter := 0,
               overwrite_result := false } ∧
      pollard_rho fuel r N start = some r ∧
      pollard_rho_iterations fuel r N start = some 0 := by
  have hstep : rhoStep r (rhoInit N start) =
      Sum.inr { x := start, y := start, d := 1, n := N, counter := 0,
                overwrite_result := false } := by
    have hd : (rhoInit N start).d = 1 := rfl
    have hc : (rhoInit N start).counter % 1000000 = 0 ∧ r ≠ 0 := ⟨rfl, hr⟩
    unfold rhoStep
    rw [if_pos hd, if_pos hc]
    rfl
  have hloop : rhoLoop r fuel (rhoInit N start) =
      some { x := start, y := start, d := 1, n := N, counter := 0,
             overwrite_result := false } := by
    cases fuel <;> simp [rhoLoop, hstep]
  refine ⟨hloop, ?_, ?_⟩
  · simp [pollard_rho, hloop, rhoFinish]
  · simp [pollard_rho_iterations, hloop]

/-- Witness for C5: `N = 15`, start `0` (from which a lone worker finds `3`), slot holding
`5`. -/
theorem pollard_rho_slot_taken_witness :
    (0 : Int) < 15 ∧ (5 : Int) ≠ 0 ∧
      (rhoLoop 5 15 (rhoInit 15 0) =
          some { x := 0, y := 0, d := 1, n := 15, counter := 0,
                 overwrite_result := false } ∧
        pollard_rho 15 5 15 0 = some 5 ∧
        pollard_rho_iterations 15 5 15 0 = some 0) :=
  ⟨by decide, by decide, pollard_rho_slot_taken 15 0 5 (by decide) (by decide) 15⟩


/-- C6: for `N = 15` and every start in `[0, 15)`, a lone worker on an empty slot returns
(15 iterations are more than enough) with the slot holding `3` or `5`. -/
theorem pollard_rho_15 (start : Int) (h0 : 0 ≤ start) (h1 : start < 15) (fuel : Nat)
    (hfuel : 15 ≤ fuel) :
    pollard_rho fuel 0 15 start = some 3 ∨ pollard_rho fuel 0 15 start = some 5 := by
  have hall : ∀ k : Nat, k < 15 → pollard_rho 15 0 15 (k : Int) = some 3 := by decide
  obtain ⟨k, rfl⟩ := Int.eq_ofNat_of_zero_le h0
  have hk : k < 15 := by omega
  exact Or.inl (pollard_rho_mono 0 15 k 3 15 fuel hfuel (hall k hk))

/-- Witness for C6: start `7`, with room for 15 iterations. -/
theorem pollard_rho_15_witness :
    pollard_rho 15 0 15 7 = some 3 ∨ pollard_rho 15 0 15 7 = some 5 :=
  pollard_rho_15 7 (by decide) (by decide) 15 (by decide)

/-- C8: when the worker-count argument parses to a value below `1`, `main` returns exit code
`1` having only printed its diagnostic: the target is not parsed, no worker is launched and
no factor is printed.  When the argument is omitted, `main` runs with a worker count of `1`
and, once the target is parsed to a value other than `0` and the allocations succeed,
launches exactly one worker; for a target of `0` the process is aborted in `mpz_urandomm`
before any worker is launched. -/
theorem main_worker_count (E : Env) (prog n_str t : String) (ht : E.atoi t < 1) :
    (main E [prog, n_str, t]).exit_code = some 1 ∧
      (main E [prog, n_str, t]).events =
        [Event.printf "Error. Must have at least one thread.\n"] ∧
      targetParsed (main E [prog, n_str, t]) = false ∧
      launchedWorkers (main E [prog, n_str, t]) = 0 ∧
      printedFactors (main E [prog, n_str, t]) = [] ∧
      main E [prog, n_str] = mainRun E n_str 1 [] ∧
      (∀ n, E.mpz_init_set_str n_str = some n → E.calloc_ok = true → n ≠ 0 →
        launchedWorkers (main E [prog, n_str]) = 1) ∧
      (E.mpz_init_set_str n_str = some 0 → E.calloc_ok = true →
        launchedWorkers (main E [prog, n_str]) = 0 ∧
          (main E [prog, n_str]).exit_code = none) := by
  have hmain : main E [prog, n_str, t] =
      { events := [Event.printf "Error. Must have at least one thread.\n"],
        exit_code := some 1 } := by
    simp [main, ht]
  refine ⟨by rw [hmain], by rw [hmain], by rw [hmain]; rfl, by rw [hmain]; rfl,
    by rw [hmain]; rfl, rfl, ?_, ?_⟩
  · intro n hn hc hn0
    have hrun : main E [prog, n_str] = mainRun E n_str 1 [] := rfl
    rw [hrun]
    unfold mainRun
    simp only [hn, hc, hn0]
    cases hw : E.run_workers n
        (List.map (fun i => E.mpz_urandomm i n) (List.range (1 : Int).toNat)) <;>
      simp [launchedWorkers, List.enum, List.enumFrom, List.range_succ]
  · intro hn hc
    have hrun : main E [prog, n_str] = mainRun E n_str 1 [] := rfl
    rw [hrun]
    unfold mainRun
    simp only [hn, hc]
    exact ⟨rfl, rfl⟩

/-- Witness for C8: the sample environment with worker-count argument `0`. -/
theorem main_worker_count_witness :
    sampleEnv.atoi "0" < 1 ∧
      ((main sampleEnv ["pollard_rho", "15", "0"]).exit_code = some 1 ∧
      (main sampleEnv ["pollard_rho", "15", "0"]).events =
        [Event.printf "Error. Must have at least one thread.\n"] ∧
      targetParsed (main sampleEnv ["pollard_rho", "15", "0"]) = false ∧
      launchedWorkers (main sampleEnv ["pollard_rho", "15", "0"]) = 0 ∧
      printedFactors (main sampleEnv ["pollard_rho", "15", "0"]) = [] ∧
      main sampleEnv ["pollard_rho", "15"] = mainRun sampleEnv "15" 1 [] ∧
      (∀ n, sampleEnv.mpz_init_set_str "15" = some n → sampleEnv.calloc_ok = true → n ≠ 0 →
        launchedWorkers (main sampleEnv ["pollard_rho", "15"]) = 1) ∧
      (sampleEnv.mpz_init_set_str "15" = some 0 → sampleEnv.calloc_ok = true →
        launchedWorkers (main sampleEnv ["pollard_rho", "15"]) = 0 ∧
          (main sampleEnv ["pollard_rho", "15"]).exit_code = none)) :=
  ⟨by decide, main_worker_count sampleEnv "pollard_rho" "15" "0" (by decide)⟩

/-- C9 (as stated, refuted): it is not the case that a target that fails to parse leaves
standard output empty: the diagnostic itself is written there with `printf`. -/
theorem main_parse_failure_counterexample :
    ¬ ∀ (E : Env) (prog n_str : String), E.mpz_init_set_str n_str = none →
        (main E [prog, n_str]).exit_code = some 1 ∧
        launchedWorkers (main E [prog, n_str]) = 0 ∧
        stdoutText (main E [prog, n_str]) = [] := by
  intro h
  have h2 := (h sampleEnv "pollard_rho" "12x" (by decide)).2.2
  exact absurd h2 (by decide)

/-- C9 (amended): when the integer-to-factor argument `n_str` fails to parse as a base 10
integer, `main` returns exit code `1`, launches no worker, prints no factor, and standard
output holds nothing but one diagnostic message, printed there with `printf`: the message
about the number when `main` gets to parsing it, and otherwise the message about the thread
count or the usage line. -/
theorem main_parse_failure (E : Env) (argv : List String) (n_str : String)
    (harg : argv[1]? = some n_str) (hparse : E.mpz_init_set_str n_str = none) :
    (main E argv).exit_code = some 1 ∧
      launchedWorkers (main E argv) = 0 ∧
      printedFactors (main E argv) = [] ∧
      ∃ msg, stdoutText (main E argv) = [msg] ∧
        (main E argv).events.getLast? = some (Event.printf msg) ∧
        (msg = "Error. Not a valid base 10 number.\n" ∨
          msg = "Error. Must have at least one thread.\n" ∨
          msg = "Usage: ./pollard_rho number_to_factor [number_of_threads]\n") ∧
        (targetParsed (main E argv) = true → msg = "Error. Not a valid base 10 number.\n") := by
  have hrun : ∀ T, mainRun E n_str T [] =
      { events := [Event.parse_target n_str,
                   Event.printf "Error. Not a valid base 10 number.\n"],
        exit_code := some 1 } := by
    intro T
    unfold mainRun
    simp only [hparse]
    rfl
  have hshape : main E argv =
        { events := [Event.parse_target n_str,
                     Event.printf "Error. Not a valid base 10 number.\n"],
          exit_code := some 1 } ∨
      main E argv =
        { events := [Event.printf "Error. Must have at least one thread.\n"],
          exit_code := some 1 } ∨
      main E argv =
        { events :=
            [Event.printf "Usage: ./pollard_rho number_to_factor [number_of_threads]\n"],
          exit_code := some 1 } := by
    rcases argv with _ | ⟨a, _ | ⟨b, _ | ⟨c, _ | ⟨d, rest⟩⟩⟩⟩
    · simp at harg
    · simp at harg
    · have hb : b = n_str := by simpa using harg
      subst hb
      exact Or.inl (hrun 1)
    · have hb : b = n_str := by simpa using harg
      subst hb
      by_cases hT : E.atoi c < 1
      · right; left
        simp [main, hT]
      · left
        have : main E [a, b, c] = mainRun E b (E.atoi c) [] := by
          simp [main, hT]
        rw [this]
        exact hrun _
    · right; right
      simp [main]
  rcases hshape with h | h | h
  · rw [h]
    exact ⟨rfl, rfl, rfl, _, rfl, rfl, Or.inl rfl, fun _ => rfl⟩
  · rw [h]
    exact ⟨rfl, rfl, rfl, _, rfl, rfl, Or.inr (Or.inl rfl), fun hp => absurd hp (by decide)⟩
  · rw [h]
    exact ⟨rfl, rfl, rfl, _, rfl, rfl, Or.inr (Or.inr rfl), fun hp => absurd hp (by decide)⟩

/-- Witness for C9 (amended): the sample environment with the target text `12x` and a
worker count of `0`, where the diagnostic is the one about the thread count. -/
theorem main_parse_failure_witness :
    (main sampleEnv ["pollard_rho", "12x", "0"]).exit_code = some 1 ∧
      launchedWorkers (main sampleEnv ["pollard_rho", "12x", "0"]) = 0 ∧
      printedFactors (main sampleEnv ["pollard_rho", "12x", "0"]) = [] ∧
      ∃ msg, stdoutText (main sampleEnv ["pollard_rho", "12x", "0"]) = [msg] ∧
        (main sampleEnv ["pollard_rho", "12x", "0"]).events.getLast? =
          some (Event.printf msg) ∧
        (msg = "Error. Not a valid base 10 number.\n" ∨
          msg = "Error. Must have at least one thread.\n" ∨
          msg = "Usage: ./pollard_rho number_to_factor [number_of_threads]\n") ∧
        (targetParsed (main sampleEnv ["pollard_rho", "12x", "0"]) = true →
          msg = "Error. Not a valid base 10 number.\n") :=
  main_parse_failure sampleEnv ["pollard_rho", "12x", "0"] "12x" rfl (by decide)

/-- C10: for every `N ≥ 2` and every start `s`, with the slot empty throughout, there is an
iteration count `k ≥ 1` such that: after each `j ≤ k` iterations the tortoise is `g^j(s)` and
the hare is `g^(2j)(s)`; `gcd(|g^j(s) - g^(2j)(s)|, N)` is `1` for `1 ≤ j < k` and is not `1`
for `j = k`; the worker performs exactly `k` iterations; and with room for `k` iterations
`pollard_rho` returns with `gcd(|g^k(s) - g^(2k)(s)|, N)` in the slot. -/
theorem floyd_stepping (N s : Int) (hN : 2 ≤ N) :
    ∃ k : Nat, 1 ≤ k ∧
      (∀ j, j ≤ k → ∃ st, rhoAfter 0 j (rhoInit N s) = some st ∧
        st.x = orbit N s j ∧ st.y = orbit N s (2 * j) ∧ st.counter = j) ∧
      (∀ j, k < j → rhoAfter 0 j (rhoInit N s) = none) ∧
      (∀ j, 1 ≤ j → j < k → Int.gcd |orbit N s j - orbit N s (2 * j)| N = 1) ∧
      Int.gcd |orbit N s k - orbit N s (2 * k)| N ≠ 1 ∧
      ∀ fuel, k ≤ fuel →
        pollard_rho fuel 0 N s = some (Int.gcd |orbit N s k - orbit N s (2 * k)| N : Int) ∧
        pollard_rho_iterations fuel 0 N s = some k := by
  have habs : ∀ j, (Int.gcd |orbit N s j - orbit N s (2 * j)| N : Int) = floydGcd N s j := by
    intro j
    simp [floydGcd, Int.gcd, Int.natAbs_abs]
  obtain ⟨k, hk1, _, hone, hne, hloop⟩ := rhoLoop_search N s hN
  refine ⟨k, hk1, ?_, ?_, ?_, ?_, ?_⟩
  · intro j hj
    refine ⟨floydState N s j, ?_, rfl, rfl, rfl⟩
    have := rhoAfter_floydState N s k hone j 0 (by omega)
    rw [floydState_zero, Nat.zero_add] at this
    exact this
  · intro j hj
    have := rhoAfter_floydState_none N s k hk1 hone hne j 0 (by omega) (by omega)
    rw [floydState_zero] at this
    exact this
  · intro j hj1 hjk
    have := hone j hj1 hjk
    rw [← habs j] at this
    exact_mod_cast this
  · intro h
    apply hne
    rw [← habs k, h]
    rfl
  · intro fuel hfuel
    have hl := hloop fuel hfuel
    constructor
    · unfold pollard_rho
      rw [hl, habs k]
      simp [rhoFinish, floydState, Nat.one_le_iff_ne_zero.mp hk1]
    · unfold pollard_rho_iterations
      rw [hl]
      rfl

/-- Witness for C10: `N = 35`, start `3`. -/
theorem floyd_stepping_witness :
    (2 : Int) ≤ 35 ∧
      ∃ k : Nat, 1 ≤ k ∧
        (∀ j, j ≤ k → ∃ st, rhoAfter 0 j (rhoInit 35 3) = some st ∧
          st.x = orbit 35 3 j ∧ st.y = orbit 35 3 (2 * j) ∧ st.counter = j) ∧
        (∀ j, k < j → rhoAfter 0 j (rhoInit 35 3) = none) ∧
        (∀ j, 1 ≤ j → j < k → Int.gcd |orbit 35 3 j - orbit 35 3 (2 * j)| 35 = 1) ∧
        Int.gcd |orbit 35 3 k - orbit 35 3 (2 * k)| 35 ≠ 1 ∧
        ∀ fuel, k ≤ fuel →
          pollard_rho fuel 0 35 3 =
              some (Int.gcd |orbit 35 3 k - orbit 35 3 (2 * k)| 35 : Int) ∧
            pollard_rho_iterations fuel 0 35 3 = some k :=
  ⟨by decide, floyd_stepping 35 3 (by decide)⟩

/-- C11: the slot history `slot` gives what the result slot holds at each pass of a running
worker; it is filled for good once the worker has done `t` iterations.  A pass whose counter
is not a multiple of 1,000,000 does not depend on the slot; a pass of the loop whose counter
is a multiple of 1,000,000, the first pass with counter `0` included, stops on a filled slot
and goes on with an empty one; two histories that agree at the multiples of 1,000,000 give
the same run; and the worker leaves its loop having done at most 1,000,000 further
iterations. -/
theorem cancellation_delay (N start : Int) (slot : Nat → Int) (t : Nat)
    (hfull : ∀ i, t < i → slot i ≠ 0) :
    (∀ (r r2 : Int) (st : RhoState), st.counter % 1000000 ≠ 0 →
        rhoStep r st = rhoStep r2 st) ∧
      (∀ (r : Int) (st : RhoState), st.d = 1 → st.counter % 1000000 = 0 →
        rhoStep r st =
          if r ≠ 0 then Sum.inr { st with overwrite_result := false }
          else Sum.inl (rhoBody st)) ∧
      (∀ r : Int, rhoStep r (rhoInit N start) =
          if r ≠ 0 then Sum.inr { rhoInit N start with overwrite_result := false }
          else Sum.inl (rhoBody (rhoInit N start))) ∧
      (∀ (slot2 : Nat → Int) (fuel : Nat), (∀ i, i % 1000000 = 0 → slot i = slot2 i) →
        rhoLoopShared slot fuel (rhoInit N start) =
          rhoLoopShared slot2 fuel (rhoInit N start)) ∧
      (∀ fuel, t + 1000000 ≤ fuel →
        ∃ out, rhoLoopShared slot fuel (rhoInit N start) = some out ∧
          out.counter ≤ t + 1000000) := by
  refine ⟨fun r r2 st hc => rhoStep_no_read r r2 st hc,
    fun r st hd hc => rhoStep_read r st hd hc,
    fun r => rhoStep_read r (rhoInit N start) rfl rfl,
    fun slot2 fuel h => rhoLoopShared_congr slot slot2 h fuel (rhoInit N start), ?_⟩
  intro fuel hfuel
  have hm : (t / 1000000 + 1) * 1000000 % 1000000 = 0 := Nat.mul_mod_left _ _
  have hlt : t < (t / 1000000 + 1) * 1000000 := by omega
  have hle : (t / 1000000 + 1) * 1000000 ≤ t + 1000000 := by omega
  obtain ⟨out, hout, _, hc⟩ :=
    rhoLoopShared_bounded slot ((t / 1000000 + 1) * 1000000) hm (hfull _ hlt)
      ((t / 1000000 + 1) * 1000000) fuel (rhoInit N start)
      (by show 0 + _ = _; omega) (by omega)
  exact ⟨out, hout, by omega⟩

/-- Witness for C11: `N = 15`, start `0`, and a slot that is empty at the first pass and
holds `5` from then on. -/
theorem cancellation_delay_witness :
    (∀ (r r2 : Int) (st : RhoState), st.counter % 1000000 ≠ 0 →
        rhoStep r st = rhoStep r2 st) ∧
      (∀ (r : Int) (st : RhoState), st.d = 1 → st.counter % 1000000 = 0 →
        rhoStep r st =
          if r ≠ 0 then Sum.inr { st with overwrite_result := false }
          else Sum.inl (rhoBody st)) ∧
      (∀ r : Int, rhoStep r (rhoInit 15 0) =
          if r ≠ 0 then Sum.inr { rhoInit 15 0 with overwrite_result := false }
          else Sum.inl (rhoBody (rhoInit 15 0))) ∧
      (∀ (slot2 : Nat → Int) (fuel : Nat),
        (∀ i, i % 1000000 = 0 → (fun j : Nat => if j = 0 then (0 : Int) else 5) i = slot2 i) →
        rhoLoopShared (fun j => if j = 0 then 0 else 5) fuel (rhoInit 15 0) =
          rhoLoopShared slot2 fuel (rhoInit 15 0)) ∧
      (∀ fuel, 0 + 1000000 ≤ fuel →
        ∃ out, rhoLoopShared (fun j => if j = 0 then 0 else 5) fuel (rhoInit 15 0) = some out ∧
          out.counter ≤ 0 + 1000000) :=
  cancellation_delay 15 0 (fun j => if j = 0 then 0 else 5) 0
    (fun i hi => by simp only [if_neg (Nat.pos_iff_ne_zero.mp hi)]; decide)

/-- C12: for every `N ≥ 2` and every start in `[0, N)`, a lone worker on a slot that stays
empty leaves its loop after exactly `k` iterations for some `1 ≤ k ≤ N`: room for `k`
iterations is enough and less is not.  The bound comes from an iteration `c ≤ N`, not before
`k`, at which tortoise and hare coincide, where the probe is `gcd(0, N) = N ≠ 1`. -/
theorem pollard_rho_terminates (N start : Int) (hN : 2 ≤ N) (_h0 : 0 ≤ start)
    (_h1 : start < N) :
    ∃ k : Nat, 1 ≤ k ∧ (k : Int) ≤ N ∧
      (∀ fuel, k ≤ fuel → pollard_rho_iterations fuel 0 N start = some k) ∧
      (∀ fuel, fuel < k → pollard_rho_iterations fuel 0 N start = none) ∧
      (∃ st, rhoLoop 0 N.toNat (rhoInit N start) = some st ∧ st.counter = k ∧ st.d ≠ 1) ∧
      ∃ c : Nat, k ≤ c ∧ (c : Int) ≤ N ∧ orbit N start c = orbit N start (2 * c) ∧
        floydGcd N start c = N ∧ floydGcd N start c ≠ 1 := by
  obtain ⟨k, hk1, hk2, hone, hne, hloop⟩ := rhoLoop_search N start hN
  obtain ⟨c, hc1, hc2, hc3⟩ := exists_collision N start (by omega)
  have hgc : floydGcd N start c = N := by
    rw [floydGcd_of_collision N start c hc3]
    exact Int.natAbs_of_nonneg (by omega)
  have hkc : k ≤ c := by
    by_contra hlt
    have := hone c hc1 (by omega)
    rw [hgc] at this
    omega
  refine ⟨k, hk1, by omega, ?_, ?_, ?_, c, hkc, by omega, hc3, hgc, by rw [hgc]; omega⟩
  · intro fuel hfuel
    unfold pollard_rho_iterations
    rw [hloop fuel hfuel]
    rfl
  · intro fuel hfuel
    unfold pollard_rho_iterations
    rw [← floydState_zero, rhoLoop_floydState_none N start k hone fuel 0 (by omega)]
    rfl
  · refine ⟨floydState N start k, hloop _ hk2, rfl, ?_⟩
    rw [floydState_d_pos N start k hk1]
    exact hne

/-- Witness for C12: `N = 21`, start `2`. -/
theorem pollard_rho_terminates_witness :
    ∃ k : Nat, 1 ≤ k ∧ (k : Int) ≤ 21 ∧
      (∀ fuel, k ≤ fuel → pollard_rho_iterations fuel 0 21 2 = some k) ∧
      (∀ fuel, fuel < k → pollard_rho_iterations fuel 0 21 2 = none) ∧
      (∃ st, rhoLoop 0 (21 : Int).toNat (rhoInit 21 2) = some st ∧ st.counter = k ∧
        st.d ≠ 1) ∧
      ∃ c : Nat, k ≤ c ∧ (c : Int) ≤ 21 ∧ orbit 21 2 c = orbit 21 2 (2 * c) ∧
        floydGcd 21 2 c = 21 ∧ floydGcd 21 2 c ≠ 1 :=
  pollard_rho_terminates 21 2 (by decide) (by decide) (by decide)

/-- C13: for every `N ≥ 1`, every start and every history of the slot, a worker that leaves
its loop with the flag `overwrite_result` set writes its last probe `d` into the slot
whatever the slot holds, and `d` is a divisor of `N` with `2 ≤ d ≤ N`, so neither `0` nor
`1`; in particular `pollard_rho` called on a slot that keeps the content `r` returns with
`d` in the slot. -/
theorem written_value_divisor (N start : Int) (hN : 1 ≤ N) (slot : Nat → Int) (fuel : Nat)
    (st : RhoState) (hrun : rhoLoopShared slot fuel (rhoInit N start) = some st)
    (hw : st.overwrite_result = true) :
    (∀ r, rhoFinish r st = st.d) ∧ 2 ≤ st.d ∧ st.d ≤ N ∧ st.d ∣ N ∧ N % st.d = 0 ∧
      st.d ≠ 0 ∧ st.d ≠ 1 ∧
      (∀ r, (∀ i, slot i = r) → pollard_rho fuel r N start = some st.d) := by
  obtain ⟨_, h1, h2, h3, h4⟩ :=
    rhoLoopShared_divisor N hN slot fuel (rhoInit N start) st rfl (le_refl _) hN
      (one_dvd N) hrun
  have hne : st.d ≠ 1 := h4 hw
  have hfin : ∀ r, rhoFinish r st = st.d := by
    intro r
    simp [rhoFinish, hw]
  refine ⟨hfin, by omega, h2, h3, Int.emod_eq_zero_of_dvd h3, by omega, hne, ?_⟩
  intro r hr
  have hslot : slot = fun _ => r := funext hr
  unfold pollard_rho
  rw [rhoLoop_eq_shared, ← hslot, hrun]
  simp [hfin r]

/-- Witness for C13: `N = 15`, start `0`, a slot that stays empty; the worker leaves the loop
after two iterations with `d = 3`. -/
theorem written_value_divisor_witness :
    (∀ r, rhoFinish r
        { x := 2, y := 11, d := 3, n := 15, counter := 2, overwrite_result := true } = 3) ∧
      (2 : Int) ≤ 3 ∧ (3 : Int) ≤ 15 ∧ (3 : Int) ∣ 15 ∧ (15 : Int) % 3 = 0 ∧
      (3 : Int) ≠ 0 ∧ (3 : Int) ≠ 1 ∧
      (∀ r, (∀ i, (fun _ : Nat => (0 : Int)) i = r) → pollard_rho 15 r 15 0 = some 3) :=
  written_value_divisor 15 0 (by decide) (fun _ => 0) 15
    { x := 2, y := 11, d := 3, n := 15, counter := 2, overwrite_result := true }
    (by decide) rfl

end Factorizer
